/-
Verification of the interaction and timeline engine of the musicplay2ai
MIDI sequencer (src/PianoRoll.js and the drawer/event-broker component).

Conventions of the shallow embedding:
* JavaScript numbers holding integral tick values are modelled as `Int`
  (JS numbers are signed; subtraction such as `msg.time - nOn.time` in
  `_messagesToNotes` can go negative, which `Nat` could not represent).
* Fractional tick/pixel arithmetic (playback, resizing, marquee geometry)
  is modelled as `ℚ`; the source only adds, subtracts, multiplies, divides
  and compares such values, so exact rational arithmetic models the
  floating-point source faithfully on the stated properties.
* `Array.prototype.sort(cmp)` is modelled as the stable merge sort
  `List.mergeSort le` with `le a b ↔ cmp a b ≤ 0`.  ECMAScript guarantees
  a stable sort for consistent comparators; for inconsistent comparators
  (which `_notesToMessages` produces when 'other' records tie with note
  messages) the standard leaves the order implementation-defined, and the
  stable merge sort is fixed here as the canonical model.
* Mutable loops (`forEach` pushing to arrays, `while` loops) become folds
  or structural recursion; in-place object mutation becomes functional
  record update.
-/
import Mathlib

namespace MusicPlay

/-! ## Timeline data model (src/PianoRoll.js state.notes)

A record in `state.notes` is either a note (`pitch`, `velocity`,
`channel`, `start_tick`, `duration_ticks`) or an 'other' event
(`time`, raw MIDI bytes `msg`). -/

structure Note where
  pitch : Nat
  velocity : Nat
  channel : Nat
  start_tick : Int
  duration_ticks : Int
deriving DecidableEq, Repr

inductive TLEvent where
  | note (n : Note)
  | other (time : Int) (msg : List Nat)
deriving DecidableEq, Repr

/-! ## Message-list codec (src/PianoRoll.js `_notesToMessages` / `_messagesToNotes`) -/

inductive MsgType where
  | noteOn
  | noteOff
  | other
deriving DecidableEq, Repr

structure Msg where
  type : MsgType
  pitch : Nat := 0
  velocity : Nat := 0
  time : Int
  channel : Nat := 0
  msg : List Nat := []
deriving DecidableEq, Repr

/-- The noteOn message pushed for a note by `_notesToMessages`
(`channel: n.channel || 0` is the identity on `Nat` channels, since
`0 || 0` is `0`). -/
def onMsg (n : Note) : Msg :=
  { type := .noteOn, pitch := n.pitch, velocity := n.velocity,
    time := n.start_tick, channel := n.channel }

/-- The noteOff message pushed for a note by `_notesToMessages`. -/
def offMsg (n : Note) : Msg :=
  { type := .noteOff, pitch := n.pitch, velocity := 0,
    time := n.start_tick + n.duration_ticks, channel := n.channel }

/-- The unsorted message list built by the `forEach` push loop of
`_notesToMessages`: 'other' records verbatim, a noteOn/noteOff pair per
note. -/
def rawMessages (notes : List TLEvent) : List Msg :=
  notes.flatMap fun e =>
    match e with
    | .other t m => [{ type := .other, time := t, msg := m }]
    | .note n => [onMsg n, offMsg n]

/-- The sort order of `_notesToMessages` (lines 1455-1461): the comparator
returns -1/1 on strictly ordered times, -1 when a noteOff ties with a
noteOn, 1 for the reverse pair, and 0 otherwise; `exportLE a b` is
"comparator result ≤ 0". -/
def exportLE (a b : Msg) : Bool :=
  if a.time < b.time then true
  else if b.time < a.time then false
  else if a.type = .noteOff ∧ b.type = .noteOn then true
  else if a.type = .noteOn ∧ b.type = .noteOff then false
  else true

/-- `_notesToMessages`: push messages, then `messages.sort(comparator)`. -/
def notesToMessages (notes : List TLEvent) : List Msg :=
  (rawMessages notes).mergeSort exportLE

/-- The sort order of `_messagesToNotes` (`(a, b) => a.time - b.time`):
"comparator result ≤ 0" is `a.time ≤ b.time`. -/
def importLE (a b : Msg) : Bool :=
  a.time ≤ b.time

/-- The `openNotes` map of `_messagesToNotes`.  The JS object is keyed by
the string `` `${pitch}_${channel}` ``, an injective encoding of the pair
`(pitch, channel)`, so it is modelled as a function out of that pair. -/
def OpenMap : Type := Nat × Nat → Option Msg

/-- Key of a message in the `openNotes` map. -/
def msgKey (m : Msg) : Nat × Nat := (m.pitch, m.channel)

/-- One iteration of the `forEach` body of `_messagesToNotes`:
a `noteOn` with positive velocity opens a pending note; a `noteOff` (or a
`noteOn` with velocity 0) closes the pending note of its key, if any,
pushing the paired note; an 'other' message is pushed verbatim. -/
def importStep (st : List TLEvent × OpenMap) (m : Msg) : List TLEvent × OpenMap :=
  if m.type = .noteOn ∧ m.velocity > 0 then
    (st.1, fun k => if k = msgKey m then some m else st.2 k)
  else if m.type = .noteOff ∨ (m.type = .noteOn ∧ m.velocity = 0) then
    match st.2 (msgKey m) with
    | some nOn =>
        (st.1 ++ [.note { pitch := nOn.pitch, velocity := nOn.velocity,
                          channel := nOn.channel, start_tick := nOn.time,
                          duration_ticks := m.time - nOn.time }],
         fun k => if k = msgKey m then none else st.2 k)
    | none => st
  else if m.type = .other then
    (st.1 ++ [.other m.time m.msg], st.2)
  else st

/-- `_messagesToNotes`: sort by time, then run the pairing loop; the
`notes` array is returned, dropping unmatched open notes. -/
def messagesToNotes (messages : List Msg) : List TLEvent :=
  ((messages.mergeSort importLE).foldl importStep ([], fun _ => none)).1

/-! ## VLQ encoder (src/PianoRoll.js `writeVlq`, lines 423-432)

The JS loop pushes `value & 0x7F`, then repeatedly shifts right by 7 and
pushes `(value & 0x7F) | 0x80` while the value is positive, finally
reversing.  For the claimed range `[0, 0x0FFFFFFF]` the signed 32-bit
shift `value >>= 7` is exactly division by 128, and `value & 0x7F` is
`value % 128`. -/

/-- The `while (value > 0)` loop of `writeVlq`: continuation bytes, least
significant group first, each with the high bit (`| 0x80`) set. -/
def writeVlqAux (v : Nat) : List Nat :=
  if v = 0 then [] else (v % 128 + 128) :: writeVlqAux (v / 128)
termination_by v
decreasing_by exact Nat.div_lt_self (Nat.pos_of_ne_zero (by assumption)) (by norm_num)

/-- `writeVlq`: low 7 bits without the high bit, then the continuation
loop, reversed to most-significant-first order. -/
def writeVlq (value : Nat) : List Nat :=
  ((value % 128) :: writeVlqAux (value / 128)).reverse

/-- The standard VLQ decoder as the spec states it ("accumulating 7-bit
groups until a byte with high bit clear"); `none` when the bytes run out
before a terminating byte. -/
def decodeVlq : List Nat → Nat → Option Nat
  | [], _ => none
  | b :: rest, acc =>
      if b < 128 then some (acc * 128 + b) else decodeVlq rest (acc * 128 + b % 128)

theorem writeVlqAux_zero : writeVlqAux 0 = [] := by
  rw [writeVlqAux]
  simp

theorem writeVlqAux_pos {v : Nat} (h : v ≠ 0) :
    writeVlqAux v = (v % 128 + 128) :: writeVlqAux (v / 128) := by
  rw [writeVlqAux]
  simp [h]

/-- Continuation bytes all have the high bit set and fit in a byte. -/
theorem writeVlqAux_mem_range : ∀ (v : Nat), ∀ b ∈ writeVlqAux v, 128 ≤ b ∧ b < 256
  | 0 => by simp [writeVlqAux_zero]
  | v + 1 => by
    rw [writeVlqAux_pos (Nat.succ_ne_zero v)]
    intro b hb
    rcases List.mem_cons.mp hb with h | h
    · subst h
      constructor
      · omega
      · have : (v + 1) % 128 < 128 := Nat.mod_lt _ (by norm_num)
        omega
    · exact writeVlqAux_mem_range ((v + 1) / 128) b h
termination_by v => v
decreasing_by exact Nat.div_lt_self (Nat.succ_pos v) (by norm_num)

/-- Feeding the reversed continuation bytes of `v` to the decoder shifts
the accumulator past them, leaving `acc * 128 ^ k + v`. -/
theorem decodeVlq_aux_append : ∀ (v acc : Nat) (rest : List Nat),
    decodeVlq ((writeVlqAux v).reverse ++ rest) acc
      = decodeVlq rest (acc * 128 ^ (writeVlqAux v).length + v)
  | 0, acc, rest => by simp [writeVlqAux_zero]
  | v + 1, acc, rest => by
    rw [writeVlqAux_pos (Nat.succ_ne_zero v)]
    rw [List.reverse_cons, List.append_assoc]
    rw [decodeVlq_aux_append ((v + 1) / 128) acc _]
    have hge : ¬ ((v + 1) % 128 + 128 < 128) := by omega
    simp only [List.cons_append, List.nil_append, decodeVlq, hge, if_false]
    have hmod : ((v + 1) % 128 + 128) % 128 = (v + 1) % 128 := by omega
    rw [hmod]
    congr 1
    simp only [List.length_cons]
    have : (acc * 128 ^ (writeVlqAux ((v + 1) / 128)).length + (v + 1) / 128) * 128
              + (v + 1) % 128
        = acc * (128 ^ (writeVlqAux ((v + 1) / 128)).length * 128)
              + ((v + 1) / 128 * 128 + (v + 1) % 128) := by ring
    rw [this, Nat.div_add_mod' (v + 1) 128, pow_succ]
termination_by v => v
decreasing_by exact Nat.div_lt_self (Nat.succ_pos v) (by norm_num)

/-- The value `v` is below `128 ^ (number of continuation bytes)` — with
one final data byte this makes the length minimal. -/
theorem writeVlqAux_lt : ∀ (v : Nat), v < 128 ^ (writeVlqAux v).length
  | 0 => by simp [writeVlqAux_zero]
  | v + 1 => by
    rw [writeVlqAux_pos (Nat.succ_ne_zero v)]
    simp only [List.length_cons, pow_succ, Nat.succ_eq_add_one]
    have ih := writeVlqAux_lt ((v + 1) / 128)
    have h1 := Nat.div_add_mod (v + 1) 128
    have h2 : (v + 1) % 128 < 128 := Nat.mod_lt _ (by norm_num)
    have h3 : (v + 1) / 128 + 1 ≤ 128 ^ (writeVlqAux ((v + 1) / 128)).length := ih
    have h4 : ((v + 1) / 128 + 1) * 128
        ≤ 128 ^ (writeVlqAux ((v + 1) / 128)).length * 128 :=
      Nat.mul_le_mul_right 128 h3
    omega
termination_by v => v
decreasing_by exact Nat.div_lt_self (Nat.succ_pos v) (by norm_num)

/-- The continuation loop emits no more bytes than any base-128 bound
allows: `v < 128 ^ m` gives at most `m` continuation bytes. -/
theorem writeVlqAux_length_le : ∀ (v m : Nat), v < 128 ^ m → (writeVlqAux v).length ≤ m
  | 0, m, _ => by simp [writeVlqAux_zero]
  | v + 1, 0, h => by simp at h
  | v + 1, m + 1, h => by
    rw [writeVlqAux_pos (Nat.succ_ne_zero v)]
    simp only [List.length_cons, Nat.add_le_add_iff_right]
    apply writeVlqAux_length_le ((v + 1) / 128) m
    rw [pow_succ] at h
    exact Nat.div_lt_of_lt_mul (by omega)
termination_by v => v
decreasing_by exact Nat.div_lt_self (Nat.succ_pos v) (by norm_num)

theorem writeVlq_eq (n : Nat) :
    writeVlq n = (writeVlqAux (n / 128)).reverse ++ [n % 128] := by
  rw [writeVlq, List.reverse_cons]

/-- C2.  VLQ encoding: for every integer in `[0, 0x0FFFFFFF]`, `writeVlq n`
is a most-significant-first base-128 encoding whose bytes all have the
high bit set except the last (which is the low 7 bits of `n`), the
standard VLQ decode of it returns `n`, and the byte count is minimal
(`n < 128 ^ length`, and no byte count `m ≥ 1` with `n < 128 ^ m` is
shorter). -/
theorem writeVlq_vlq_codec (n : Nat) (_hrange : n ≤ 0x0FFFFFFF) :
    (∀ b ∈ (writeVlq n).dropLast, 128 ≤ b ∧ b < 256)
    ∧ (writeVlq n).getLast? = some (n % 128) ∧ n % 128 < 128
    ∧ decodeVlq (writeVlq n) 0 = some n
    ∧ n < 128 ^ (writeVlq n).length
    ∧ (∀ m, 0 < m → n < 128 ^ m → (writeVlq n).length ≤ m) := by
  have hlen : (writeVlq n).length = (writeVlqAux (n / 128)).length + 1 := by
    rw [writeVlq_eq]
    simp
  refine ⟨?_, ?_, ?_, ?_, ?_, ?_⟩
  · intro b hb
    rw [writeVlq_eq, List.dropLast_concat, List.mem_reverse] at hb
    exact writeVlqAux_mem_range _ b hb
  · rw [writeVlq_eq, List.getLast?_concat]
  · exact Nat.mod_lt _ (by norm_num)
  · rw [writeVlq_eq, decodeVlq_aux_append]
    have hlt : n % 128 < 128 := Nat.mod_lt _ (by norm_num)
    simp only [decodeVlq, hlt, if_true]
    rw [Nat.zero_mul, Nat.zero_add, Nat.mul_comm, Nat.add_comm]
    rw [Nat.mod_add_div n 128]
  · rw [hlen, pow_succ]
    have h1 := writeVlqAux_lt (n / 128)
    have h2 := Nat.div_add_mod n 128
    have h3 : n % 128 < 128 := Nat.mod_lt _ (by norm_num)
    have h4 : (n / 128 + 1) * 128
        ≤ 128 ^ (writeVlqAux (n / 128)).length * 128 :=
      Nat.mul_le_mul_right 128 h1
    omega
  · intro m hm hnm
    obtain ⟨m', rfl⟩ := Nat.exists_eq_add_of_lt hm
    rw [hlen]
    have hdiv : n / 128 < 128 ^ m' := by
      apply Nat.div_lt_of_lt_mul
      rw [Nat.zero_add, pow_succ, Nat.mul_comm] at hnm
      exact hnm
    have := writeVlqAux_length_le (n / 128) m' hdiv
    omega

/-- Witness for C2 at `n = 1234567`. -/
theorem writeVlq_vlq_codec_witness :
    1234567 ≤ 0x0FFFFFFF
    ∧ ((∀ b ∈ (writeVlq 1234567).dropLast, 128 ≤ b ∧ b < 256)
    ∧ (writeVlq 1234567).getLast? = some (1234567 % 128) ∧ 1234567 % 128 < 128
    ∧ decodeVlq (writeVlq 1234567) 0 = some 1234567
    ∧ 1234567 < 128 ^ (writeVlq 1234567).length
    ∧ (∀ m, 0 < m → 1234567 < 128 ^ m → (writeVlq 1234567).length ≤ m)) :=
  ⟨by norm_num, writeVlq_vlq_codec 1234567 (by norm_num)⟩

/-! ## Round-trip of the message-list codec (C1) -/

def noteKey (n : Note) : Nat × Nat := (n.pitch, n.channel)

theorem msgKey_onMsg (n : Note) : msgKey (onMsg n) = noteKey n := rfl

theorem msgKey_offMsg (n : Note) : msgKey (offMsg n) = noteKey n := rfl

theorem onMsg_type (n : Note) : (onMsg n).type = .noteOn := rfl

theorem offMsg_type (n : Note) : (offMsg n).type = .noteOff := rfl

theorem onMsg_time (n : Note) : (onMsg n).time = n.start_tick := rfl

theorem offMsg_time (n : Note) : (offMsg n).time = n.start_tick + n.duration_ticks := rfl

/-- Reference description of the `openNotes` object after the notes in
`pending` have been opened and nothing else is pending: the map sends a
key to the noteOn message of the first pending note with that key. -/
def openOf (pending : List Note) : OpenMap :=
  fun k => (pending.find? (fun p => noteKey p == k)).map onMsg

theorem openOf_nil (k : Nat × Nat) : openOf [] k = none := rfl

theorem openOf_cons (p : Note) (pending : List Note) (k : Nat × Nat) :
    openOf (p :: pending) k
      = if noteKey p = k then some (onMsg p) else openOf pending k := by
  unfold openOf
  by_cases h : noteKey p = k
  · rw [List.find?_cons_of_pos _ (by simpa using h), if_pos h]
    rfl
  · rw [List.find?_cons_of_neg _ (by simpa using h), if_neg h]

theorem openOf_mem {pending : List Note} {n : Note}
    (hk : (pending.map noteKey).Nodup) (hm : n ∈ pending) :
    openOf pending (noteKey n) = some (onMsg n) := by
  induction pending with
  | nil => cases hm
  | cons p rest ih =>
    rcases List.mem_cons.mp hm with rfl | hm'
    · rw [openOf_cons, if_pos rfl]
    · rw [openOf_cons]
      have hne : noteKey p ≠ noteKey n := by
        intro hEq
        have : noteKey p ∈ rest.map noteKey := hEq ▸ List.mem_map_of_mem noteKey hm'
        exact (List.nodup_cons.mp (by simpa using hk)).1 this
      rw [if_neg hne]
      exact ih (List.nodup_cons.mp (by simpa using hk)).2 hm'

theorem openOf_erase_self {pending : List Note} {n : Note}
    (hk : (pending.map noteKey).Nodup) (hm : n ∈ pending) :
    openOf (pending.erase n) (noteKey n) = none := by
  have hperm : pending.Perm (n :: pending.erase n) := List.perm_cons_erase hm
  have hkeys : (n :: pending.erase n).map noteKey |>.Nodup :=
    ((hperm.map noteKey).nodup_iff).mp hk
  have hnot : noteKey n ∉ (pending.erase n).map noteKey :=
    (List.nodup_cons.mp (by simpa using hkeys)).1
  unfold openOf
  rw [List.find?_eq_none.mpr, Option.map_none']
  intro p hp
  simp only [beq_iff_eq]
  intro hEq
  exact hnot (hEq ▸ List.mem_map_of_mem noteKey hp)

theorem openOf_erase_other {pending : List Note} {n : Note} {k : Nat × Nat}
    (hm : n ∈ pending) (hne : k ≠ noteKey n) :
    openOf (pending.erase n) k = openOf pending k := by
  induction pending with
  | nil => cases hm
  | cons p rest ih =>
    by_cases hpn : p = n
    · subst hpn
      rw [List.erase_cons_head, openOf_cons, if_neg (fun h => hne h.symm)]
    · rw [List.erase_cons_tail (by simpa using hpn), openOf_cons, openOf_cons]
      rcases List.mem_cons.mp hm with h | h
      · exact absurd h.symm hpn
      · by_cases hpk : noteKey p = k
        · rw [if_pos hpk, if_pos hpk]
        · rw [if_neg hpk, if_neg hpk]
          exact ih h

/-- The unsorted export list is a permutation of "all noteOns, then all
noteOffs". -/
theorem rawMessages_perm (ns : List Note) :
    (rawMessages (ns.map TLEvent.note)).Perm (ns.map onMsg ++ ns.map offMsg) := by
  induction ns with
  | nil => simp [rawMessages]
  | cons n rest ih =>
    have h1 : rawMessages ((n :: rest).map TLEvent.note)
        = onMsg n :: offMsg n :: rawMessages (rest.map TLEvent.note) := by
      simp [rawMessages]
    rw [h1, List.map_cons, List.map_cons, List.cons_append]
    refine List.Perm.cons (onMsg n) ?_
    exact (ih.cons (offMsg n)).trans List.perm_middle.symm

theorem importStep_on {acc : List TLEvent} {opn : OpenMap} {n : Note}
    (hv : 0 < n.velocity) :
    importStep (acc, opn) (onMsg n)
      = (acc, fun k => if k = noteKey n then some (onMsg n) else opn k) := by
  unfold importStep
  rw [if_pos ⟨onMsg_type n, hv⟩]
  rfl

theorem importStep_off {acc : List TLEvent} {opn : OpenMap} {pending : List Note}
    {n : Note} (hopen : ∀ k, opn k = openOf pending k)
    (hk : (pending.map noteKey).Nodup) (hn : n ∈ pending) :
    importStep (acc, opn) (offMsg n)
      = (acc ++ [TLEvent.note n], fun k => if k = noteKey n then none else opn k) := by
  unfold importStep
  rw [if_neg (by simp [offMsg_type])]
  rw [if_pos (Or.inl (offMsg_type n))]
  have hmatch : (acc, opn).2 (msgKey (offMsg n)) = some (onMsg n) := by
    rw [msgKey_offMsg]
    exact (hopen _).trans (openOf_mem hk hn)
  rw [hmatch]
  have hd : (offMsg n).time - (onMsg n).time = n.duration_ticks := by
    rw [offMsg_time, onMsg_time]
    omega
  simp only [hd]
  rfl

/-- Invariant of the `_messagesToNotes` pairing loop: when the remaining
messages are a time-sorted permutation of "one noteOff per pending note
plus a noteOn/noteOff pair per still-untouched note", with pairwise
distinct keys and positive velocities and durations, the loop appends
exactly the pending and untouched notes (in some order) to the
accumulator. -/
theorem importFold_spec (ms : List Msg) :
    ∀ (pending todo : List Note) (acc : List TLEvent) (opn : OpenMap),
    (∀ k, opn k = openOf pending k) →
    ms.Perm (pending.map offMsg ++ (todo.map onMsg ++ todo.map offMsg)) →
    ms.Pairwise (fun a b => a.time ≤ b.time) →
    ((pending ++ todo).map noteKey).Nodup →
    (∀ n ∈ pending ++ todo, 0 < n.velocity) →
    (∀ n ∈ todo, 0 < n.duration_ticks) →
    (ms.foldl importStep (acc, opn)).1.Perm (acc ++ (pending ++ todo).map TLEvent.note) := by
  induction ms with
  | nil =>
    intro pending todo acc opn _hopen hperm _hsort _hkeys _hvel _hdur
    have hnil := hperm.symm.eq_nil
    rcases List.append_eq_nil.mp hnil with ⟨hp, hrest⟩
    rcases List.append_eq_nil.mp hrest with ⟨ht, _⟩
    rw [List.map_eq_nil] at hp ht
    subst hp; subst ht
    simp
  | cons m rest ih =>
    intro pending todo acc opn hopen hperm hsort hkeys hvel hdur
    have hkpend : (pending.map noteKey).Nodup := by
      rw [List.map_append] at hkeys
      exact (List.nodup_append.mp hkeys).1
    have hm : m ∈ pending.map offMsg ++ (todo.map onMsg ++ todo.map offMsg) :=
      hperm.mem_iff.mp (List.mem_cons_self m rest)
    have hsortrest := (List.pairwise_cons.mp hsort).2
    have hsorthead := (List.pairwise_cons.mp hsort).1
    rcases List.mem_append.mp hm with hPend | hOther
    · -- the head is the noteOff of a pending note: close it
      obtain ⟨n, hn, rfl⟩ := List.mem_map.mp hPend
      rw [List.foldl_cons, importStep_off hopen hkpend hn]
      have hpe : pending.Perm (n :: pending.erase n) := List.perm_cons_erase hn
      have hptperm : (pending ++ todo).Perm (n :: (pending.erase n ++ todo)) :=
        (hpe.append_right todo).trans (List.Perm.refl _)
      have hopen2 : ∀ k, (fun k => if k = noteKey n then none else opn k) k
          = openOf (pending.erase n) k := by
        intro k
        by_cases hk : k = noteKey n
        · subst hk
          simp only [if_pos rfl]
          exact (openOf_erase_self hkpend hn).symm
        · simp only [if_neg hk]
          rw [hopen k, openOf_erase_other hn hk]
      have hperm2 : rest.Perm
          ((pending.erase n).map offMsg ++ (todo.map onMsg ++ todo.map offMsg)) := by
        apply List.Perm.cons_inv (a := offMsg n)
        refine hperm.trans ?_
        have h1 : (pending.map offMsg).Perm (offMsg n :: (pending.erase n).map offMsg) :=
          hpe.map offMsg
        exact (h1.append_right _).trans (List.Perm.refl _)
      have hkeys2 : ((pending.erase n ++ todo).map noteKey).Nodup := by
        have := (hptperm.map noteKey).nodup_iff.mp hkeys
        rw [List.map_cons] at this
        exact (List.nodup_cons.mp this).2
      have hvel2 : ∀ n' ∈ pending.erase n ++ todo, 0 < n'.velocity := by
        intro n' hn'
        exact hvel n' (hptperm.symm.subset (List.mem_cons_of_mem n hn'))
      have hres := ih (pending.erase n) todo (acc ++ [TLEvent.note n])
        (fun k => if k = noteKey n then none else opn k)
        hopen2 hperm2 hsortrest hkeys2 hvel2 hdur
      refine hres.trans ?_
      rw [List.append_assoc]
      refine List.Perm.append_left acc ?_
      have : ((pending ++ todo).map TLEvent.note).Perm
          (TLEvent.note n :: (pending.erase n ++ todo).map TLEvent.note) := by
        have := hptperm.map TLEvent.note
        simpa using this
      exact this.symm
    rcases List.mem_append.mp hOther with hOn | hOff
    · -- the head is the noteOn of an untouched note: open it
      obtain ⟨n, hn, rfl⟩ := List.mem_map.mp hOn
      have hv : 0 < n.velocity := hvel n (List.mem_append_right pending hn)
      rw [List.foldl_cons, importStep_on hv]
      have hte : todo.Perm (n :: todo.erase n) := List.perm_cons_erase hn
      have hptperm : (pending ++ todo).Perm (n :: (pending ++ todo.erase n)) :=
        ((List.Perm.refl pending).append hte).trans List.perm_middle
      have hopen2 : ∀ k, (fun k => if k = noteKey n then some (onMsg n) else opn k) k
          = openOf (n :: pending) k := by
        intro k
        show (if k = noteKey n then some (onMsg n) else opn k) = openOf (n :: pending) k
        rw [openOf_cons]
        by_cases hk : k = noteKey n
        · subst hk
          simp
        · rw [if_neg hk, if_neg (fun h => hk h.symm), hopen k]
      have hperm2 : rest.Perm
          ((n :: pending).map offMsg
            ++ ((todo.erase n).map onMsg ++ (todo.erase n).map offMsg)) := by
        apply List.Perm.cons_inv (a := onMsg n)
        refine hperm.trans ?_
        have hon : (todo.map onMsg).Perm (onMsg n :: (todo.erase n).map onMsg) :=
          hte.map onMsg
        have hoff : (todo.map offMsg).Perm (offMsg n :: (todo.erase n).map offMsg) :=
          hte.map offMsg
        refine ((List.Perm.refl _).append (hon.append hoff)).trans ?_
        rw [List.cons_append]
        refine List.perm_middle.trans ?_
        refine List.Perm.cons (onMsg n) ?_
        rw [List.map_cons, List.cons_append]
        refine ?_
        calc (pending.map offMsg ++ ((todo.erase n).map onMsg
                ++ offMsg n :: (todo.erase n).map offMsg))
            |>.Perm (pending.map offMsg
                ++ (offMsg n :: ((todo.erase n).map onMsg ++ (todo.erase n).map offMsg))) :=
              List.Perm.append_left _ List.perm_middle
        _ |>.Perm (offMsg n :: (pending.map offMsg
                ++ ((todo.erase n).map onMsg ++ (todo.erase n).map offMsg))) :=
              List.perm_middle
      have hkeys2 : (((n :: pending) ++ todo.erase n).map noteKey).Nodup := by
        have h1 := (hptperm.map noteKey).nodup_iff.mp hkeys
        have h2 : (((n :: pending) ++ todo.erase n).map noteKey).Perm
            ((n :: (pending ++ todo.erase n)).map noteKey) := by
          simp
        exact h2.nodup_iff.mpr h1
      have hvel2 : ∀ n' ∈ (n :: pending) ++ todo.erase n, 0 < n'.velocity := by
        intro n' hn'
        apply hvel
        apply hptperm.symm.subset
        simpa using hn'
      have hdur2 : ∀ n' ∈ todo.erase n, 0 < n'.duration_ticks := by
        intro n' hn'
        exact hdur n' (List.mem_of_mem_erase hn')
      have hres := ih (n :: pending) (todo.erase n) acc
        (fun k => if k = noteKey n then some (onMsg n) else opn k)
        hopen2 hperm2 hsortrest hkeys2 hvel2 hdur2
      refine hres.trans ?_
      refine List.Perm.append_left acc ?_
      refine List.Perm.map TLEvent.note ?_
      calc ((n :: pending) ++ todo.erase n)
          |>.Perm (n :: (pending ++ todo.erase n)) := by rw [List.cons_append]
      _ |>.Perm (pending ++ todo) := hptperm.symm
    · -- the head cannot be the noteOff of an untouched note: its noteOn
      -- would have to follow it in a time-sorted list, but durations are
      -- positive
      exfalso
      obtain ⟨n, hn, rfl⟩ := List.mem_map.mp hOff
      have honmem : onMsg n ∈ offMsg n :: rest := by
        apply hperm.mem_iff.mpr
        apply List.mem_append_right
        apply List.mem_append_left
        exact List.mem_map_of_mem onMsg hn
      rcases List.mem_cons.mp honmem with hEq | hMem
      · have : MsgType.noteOn = MsgType.noteOff := congrArg Msg.type hEq
        simp at this
      · have hle := hsorthead (onMsg n) hMem
        rw [offMsg_time, onMsg_time] at hle
        have := hdur n hn
        omega

theorem importLE_trans : ∀ a b c : Msg, importLE a b → importLE b c → importLE a c := by
  intro a b c hab hbc
  simp only [importLE, decide_eq_true_eq] at hab hbc ⊢
  omega

theorem importLE_total : ∀ a b : Msg, importLE a b || importLE b a := by
  intro a b
  simp only [importLE]
  by_cases h : a.time ≤ b.time
  · simp [h]
  · simp [le_of_not_le h]

/-- C1 (amended).  Round-trip of the message-list codec: for every list of
note records with pairwise distinct `(pitch, channel)` pairs, positive
`duration_ticks` and positive `velocity`, `_messagesToNotes` applied to
`_notesToMessages` returns a permutation of the input notes — the same
multiset, with pitch, velocity, channel, start_tick and duration_ticks
all equal.  (Positivity of velocity is forced: the importer treats a
velocity-0 noteOn as a note-off, see the counterexample.) -/
theorem codec_roundtrip (ns : List Note)
    (hkeys : (ns.map noteKey).Nodup)
    (hdur : ∀ n ∈ ns, 0 < n.duration_ticks)
    (hvel : ∀ n ∈ ns, 0 < n.velocity) :
    (messagesToNotes (notesToMessages (ns.map TLEvent.note))).Perm
      (ns.map TLEvent.note) := by
  unfold messagesToNotes
  have hsorted :=
    List.sorted_mergeSort importLE_trans importLE_total
      (notesToMessages (ns.map TLEvent.note))
  have hsorted2 : ((notesToMessages (ns.map TLEvent.note)).mergeSort importLE).Pairwise
      (fun a b => a.time ≤ b.time) :=
    hsorted.imp (fun h => by simpa [importLE] using h)
  have hperm : ((notesToMessages (ns.map TLEvent.note)).mergeSort importLE).Perm
      (([] : List Note).map offMsg ++ (ns.map onMsg ++ ns.map offMsg)) := by
    refine (List.mergeSort_perm _ importLE).trans ?_
    unfold notesToMessages
    refine (List.mergeSort_perm _ exportLE).trans ?_
    simpa using rawMessages_perm ns
  have hmain := importFold_spec _ [] ns [] (fun _ => none)
    (fun _ => rfl) hperm hsorted2 (by simpa using hkeys) (by simpa using hvel) hdur
  simpa using hmain

/-- The note violating claim C1 as stated: velocity 0 is allowed by the
claim (only distinct keys and positive duration are demanded) but its
exported noteOn is re-imported as a note-off and the note is dropped. -/
def velZeroNote : Note := { pitch := 60, velocity := 0, channel := 0,
                            start_tick := 0, duration_ticks := 4 }

/-- C1 (counterexample).  The claim as stated is false: the single-note
list `[velZeroNote]` has pairwise distinct keys and positive duration,
yet the round trip returns the empty list, not a permutation of the
input. -/
theorem codec_roundtrip_cex :
    (([velZeroNote] : List Note).map noteKey).Nodup
    ∧ (∀ n ∈ ([velZeroNote] : List Note), 0 < n.duration_ticks)
    ∧ messagesToNotes (notesToMessages ([velZeroNote].map TLEvent.note)) = []
    ∧ ¬ (messagesToNotes (notesToMessages ([velZeroNote].map TLEvent.note))).Perm
        ([velZeroNote].map TLEvent.note) := by
  have h1 : notesToMessages ([velZeroNote].map TLEvent.note)
      = [onMsg velZeroNote, offMsg velZeroNote] := by
    unfold notesToMessages
    have hraw : rawMessages ([velZeroNote].map TLEvent.note)
        = [onMsg velZeroNote, offMsg velZeroNote] := rfl
    rw [hraw]
    exact List.mergeSort_of_sorted (by decide)
  have h2 : messagesToNotes [onMsg velZeroNote, offMsg velZeroNote] = [] := by
    unfold messagesToNotes
    rw [List.mergeSort_of_sorted (by decide)]
    rfl
  refine ⟨by decide, by decide, by rw [h1, h2], ?_⟩
  rw [h1, h2]
  simp

/-- Witness for C1 (amended) at a concrete two-note list. -/
theorem codec_roundtrip_witness :
    ((([{ pitch := 60, velocity := 100, channel := 0, start_tick := 0, duration_ticks := 96 },
        { pitch := 64, velocity := 90, channel := 1, start_tick := 48, duration_ticks := 96 }]
        : List Note).map noteKey).Nodup)
    ∧ (messagesToNotes (notesToMessages
        (([{ pitch := 60, velocity := 100, channel := 0, start_tick := 0, duration_ticks := 96 },
           { pitch := 64, velocity := 90, channel := 1, start_tick := 48, duration_ticks := 96 }]
           : List Note).map TLEvent.note))).Perm
        (([{ pitch := 60, velocity := 100, channel := 0, start_tick := 0, duration_ticks := 96 },
           { pitch := 64, velocity := 90, channel := 1, start_tick := 48, duration_ticks := 96 }]
           : List Note).map TLEvent.note) :=
  ⟨by decide,
   codec_roundtrip _ (by decide) (by decide) (by decide)⟩

/-! ## Export ordering (C3)

`_notesToMessages` sorts with a comparator that ties 'other' messages
with everything at the same time while strictly ordering noteOff before
noteOn; the comparator is therefore not transitive when an 'other'
message shares a time with note messages, and the stable merge sort can
leave a noteOn before a noteOff at that time. -/

/-- Generic sortedness of `List.merge` under any relation compatible
with the Boolean comparator (the comparator need not be transitive). -/
theorem pairwise_merge_of {α : Type _} {R : α → α → Prop} {le : α → α → Bool}
    (htrans : ∀ a b c, R a b → R b c → R a c)
    (hT : ∀ a b, le a b = true → R a b)
    (hF : ∀ a b, le a b = false → R b a) :
    ∀ (l r : List α), l.Pairwise R → r.Pairwise R → (List.merge l r le).Pairwise R
  | [], r, _, hr => by simpa using hr
  | x :: xs, [], hl, _ => by simpa using hl
  | x :: xs, y :: ys, hl, hr => by
    rcases List.pairwise_cons.mp hl with ⟨hxhead, hxs⟩
    rcases List.pairwise_cons.mp hr with ⟨hyhead, hys⟩
    by_cases h : le x y
    · rw [List.cons_merge_cons_pos le xs ys h]
      rw [List.pairwise_cons]
      refine ⟨?_, pairwise_merge_of htrans hT hF xs (y :: ys) hxs hr⟩
      intro z hz
      rcases List.mem_merge.mp hz with hz | hz
      · exact hxhead z hz
      · rcases List.mem_cons.mp hz with rfl | hz
        · exact hT x z h
        · exact htrans x y z (hT x y h) (hyhead z hz)
    · have hfalse : le x y = false := by simpa using h
      rw [List.cons_merge_cons_neg le xs ys (by simp [hfalse])]
      rw [List.pairwise_cons]
      refine ⟨?_, pairwise_merge_of htrans hT hF (x :: xs) ys hl hys⟩
      intro z hz
      rcases List.mem_merge.mp hz with hz | hz
      · rcases List.mem_cons.mp hz with rfl | hz2
        · exact hF z y hfalse
        · exact htrans y x z (hF x y hfalse) (hxhead z hz2)
      · exact hyhead z hz
termination_by l r => l.length + r.length

/-- Generic sortedness of `List.mergeSort` under any relation compatible
with the Boolean comparator. -/
theorem pairwise_mergeSort_of {α : Type _} {R : α → α → Prop} {le : α → α → Bool}
    (htrans : ∀ a b c, R a b → R b c → R a c)
    (hT : ∀ a b, le a b = true → R a b)
    (hF : ∀ a b, le a b = false → R b a) :
    ∀ (l : List α), (l.mergeSort le).Pairwise R
  | [] => by simp
  | [a] => by simp
  | a :: b :: xs => by
    have h1 : (List.splitInTwo ⟨a :: b :: xs, rfl⟩).1.1.length < xs.length + 1 + 1 := by
      simp [List.splitInTwo_fst]
      omega
    have h2 : (List.splitInTwo ⟨a :: b :: xs, rfl⟩).2.1.length < xs.length + 1 + 1 := by
      simp [List.splitInTwo_snd]
      omega
    rw [List.mergeSort]
    exact pairwise_merge_of htrans hT hF _ _
      (pairwise_mergeSort_of htrans hT hF _) (pairwise_mergeSort_of htrans hT hF _)
termination_by l => l.length

/-- Ascending time order, the primary key of both sort comparators. -/
def timeSorted (l : List Msg) : Prop :=
  l.Pairwise (fun a b => a.time ≤ b.time)

/-- At time `t`, no noteOn precedes a noteOff: the claimed tie-break. -/
def offBeforeOnAt (t : Int) (l : List Msg) : Prop :=
  l.Pairwise fun a b =>
    ¬(a.type = .noteOn ∧ b.type = .noteOff ∧ a.time = t ∧ b.time = t)

instance (t : Int) (l : List Msg) : Decidable (offBeforeOnAt t l) := by
  unfold offBeforeOnAt
  infer_instance

theorem exportLE_le_time {a b : Msg} (h : exportLE a b = true) : a.time ≤ b.time := by
  unfold exportLE at h
  split_ifs at h with h1 h2 <;> omega

theorem exportLE_ge_time {a b : Msg} (h : exportLE a b = false) : b.time ≤ a.time := by
  unfold exportLE at h
  split_ifs at h with h1 h2 h3 h4 <;> omega

theorem merge_offBeforeOn {t : Int} :
    ∀ (l r : List Msg),
    l.Pairwise (fun a b => a.time ≤ b.time) → r.Pairwise (fun a b => a.time ≤ b.time) →
    (∀ m ∈ l, ¬(m.type = .other ∧ m.time = t)) →
    (∀ m ∈ r, ¬(m.type = .other ∧ m.time = t)) →
    offBeforeOnAt t l → offBeforeOnAt t r →
    offBeforeOnAt t (List.merge l r exportLE)
  | [], r, _, _, _, _, _, hr => by simpa using hr
  | x :: xs, [], _, _, _, _, hl, _ => by simpa using hl
  | x :: xs, y :: ys, hsl, hsr, hnl, hnr, hl, hr => by
    rcases List.pairwise_cons.mp hsl with ⟨hslhead, hslt⟩
    rcases List.pairwise_cons.mp hsr with ⟨hsrhead, hsrt⟩
    rcases List.pairwise_cons.mp hl with ⟨hlhead, hlt⟩
    rcases List.pairwise_cons.mp hr with ⟨hrhead, hrt⟩
    by_cases h : exportLE x y
    · rw [List.cons_merge_cons_pos exportLE xs ys h]
      rw [offBeforeOnAt, List.pairwise_cons]
      constructor
      · intro z hz
        rintro ⟨hxon, hzoff, hxt, hzt⟩
        rcases List.mem_merge.mp hz with hzl | hzr
        · exact hlhead z hzl ⟨hxon, hzoff, hxt, hzt⟩
        · rcases List.mem_cons.mp hzr with rfl | hzys
          · -- z = y : the comparator puts a noteOff before a tying noteOn
            unfold exportLE at h
            rw [hxt, hzt] at h
            simp [hxon, hzoff] at h
          · -- z ∈ ys : y is at time t and is a noteOn (else contradiction),
            -- and the right list already violated the tie-break
            have hyz : y.time ≤ z.time := hsrhead z hzys
            have hxytime : x.time ≤ y.time := exportLE_le_time h
            have hyt : y.time = t := by omega
            match hytype : y.type with
            | .other => exact hnr y (List.mem_cons_self y ys) ⟨hytype, hyt⟩
            | .noteOff =>
                unfold exportLE at h
                rw [hxt, hyt] at h
                simp [hxon, hytype] at h
            | .noteOn => exact hrhead z hzys ⟨hytype, hzoff, hyt, hzt⟩
      · exact merge_offBeforeOn xs (y :: ys) hslt hsr
          (fun m hm => hnl m (List.mem_cons_of_mem x hm)) hnr hlt hr
    · have hfalse : exportLE x y = false := by simpa using h
      rw [List.cons_merge_cons_neg exportLE xs ys (by simp [hfalse])]
      rw [offBeforeOnAt, List.pairwise_cons]
      constructor
      · intro z hz
        rintro ⟨hyon, hzoff, hyt, hzt⟩
        rcases List.mem_merge.mp hz with hzl | hzr
        · rcases List.mem_cons.mp hzl with rfl | hzxs
          · -- z = x : a noteOff tying with the noteOn y would have sorted first
            unfold exportLE at hfalse
            rw [hzt, hyt] at hfalse
            simp [hyon, hzoff] at hfalse
          · -- z ∈ xs : x sits at time t between them; whatever x is,
            -- the comparator or the left list gives a contradiction
            have hxz : x.time ≤ z.time := hslhead z hzxs
            have hyx : y.time ≤ x.time := exportLE_ge_time hfalse
            have hxt : x.time = t := by omega
            have htrue : exportLE x y = true := by
              unfold exportLE
              rw [hxt, hyt, hyon]
              rw [if_neg (lt_irrefl t), if_neg (lt_irrefl t)]
              by_cases hxoff : x.type = MsgType.noteOff
              · rw [if_pos ⟨hxoff, rfl⟩]
              · rw [if_neg (fun hc => hxoff hc.1)]
                rw [if_neg (fun hc => MsgType.noConfusion hc.2)]
            rw [htrue] at hfalse
            exact Bool.noConfusion hfalse
        · exact hrhead z hzr ⟨hyon, hzoff, hyt, hzt⟩
      · exact merge_offBeforeOn (x :: xs) ys hsl hsrt hnl
          (fun m hm => hnr m (List.mem_cons_of_mem y hm)) hl hrt
termination_by l r => l.length + r.length

theorem timeSorted_mergeSort_exportLE (l : List Msg) :
    ((l.mergeSort exportLE).Pairwise fun a b => a.time ≤ b.time) :=
  @pairwise_mergeSort_of Msg (fun a b => a.time ≤ b.time) exportLE
    (fun _ _ _ hab hbc => le_trans hab hbc)
    (fun _ _ h => exportLE_le_time h) (fun _ _ h => exportLE_ge_time h) l

theorem mergeSort_offBeforeOn {t : Int} :
    ∀ (l : List Msg), (∀ m ∈ l, ¬(m.type = .other ∧ m.time = t)) →
      offBeforeOnAt t (l.mergeSort exportLE)
  | [], _ => by simp [offBeforeOnAt]
  | [a], _ => by simp [offBeforeOnAt]
  | a :: b :: xs, hno => by
    have h1 : (List.splitInTwo ⟨a :: b :: xs, rfl⟩).1.1.length < xs.length + 1 + 1 := by
      simp [List.splitInTwo_fst]
      omega
    have h2 : (List.splitInTwo ⟨a :: b :: xs, rfl⟩).2.1.length < xs.length + 1 + 1 := by
      simp [List.splitInTwo_snd]
      omega
    have happ : (List.splitInTwo ⟨a :: b :: xs, rfl⟩).1.1
        ++ (List.splitInTwo ⟨a :: b :: xs, rfl⟩).2.1 = a :: b :: xs :=
      List.splitInTwo_fst_append_splitInTwo_snd
        (⟨a :: b :: xs, rfl⟩ : { l : List Msg // l.length = xs.length + 1 + 1 })
    have hnofst : ∀ m ∈ (List.splitInTwo ⟨a :: b :: xs, rfl⟩).1.1,
        ¬(m.type = .other ∧ m.time = t) := by
      intro m hm
      refine hno m ?_
      rw [← happ]
      exact List.mem_append_left _ hm
    have hnosnd : ∀ m ∈ (List.splitInTwo ⟨a :: b :: xs, rfl⟩).2.1,
        ¬(m.type = .other ∧ m.time = t) := by
      intro m hm
      refine hno m ?_
      rw [← happ]
      exact List.mem_append_right _ hm
    rw [List.mergeSort]
    apply merge_offBeforeOn
    · exact timeSorted_mergeSort_exportLE _
    · exact timeSorted_mergeSort_exportLE _
    · intro m hm
      exact hnofst m (List.mem_mergeSort.mp hm)
    · intro m hm
      exact hnosnd m (List.mem_mergeSort.mp hm)
    · exact mergeSort_offBeforeOn _ hnofst
    · exact mergeSort_offBeforeOn _ hnosnd
termination_by l => l.length

/-- C3 (amended).  The message list produced by `_notesToMessages` is
always sorted by ascending time, and at every time `t` at which no
'other' message occurs, every noteOff at `t` precedes every noteOn at
`t`.  (When an 'other' message shares the time the tie-break can fail,
see the counterexample: the comparator ties 'other' messages with both
noteOns and noteOffs, so it is not transitive there.) -/
theorem notesToMessages_sorted (notes : List TLEvent) :
    timeSorted (notesToMessages notes)
    ∧ ∀ t : Int, (∀ m ∈ notesToMessages notes, ¬(m.type = .other ∧ m.time = t)) →
        offBeforeOnAt t (notesToMessages notes) := by
  constructor
  · unfold timeSorted notesToMessages
    exact timeSorted_mergeSort_exportLE _
  · intro t hno
    unfold notesToMessages at hno ⊢
    apply mergeSort_offBeforeOn
    intro m hm
    exact hno m (List.mem_mergeSort.mpr hm)

/-- Timeline violating the claimed unconditional tie-break: a note ending
at tick 96, a note starting at tick 96 and an 'other' event at tick 96
(plus one more 'other' later), arranged so that the merge compares the
starting note's noteOn against the 'other' (a tie the comparator accepts)
and never against the ending note's noteOff. -/
def tieNotes : List TLEvent :=
  [.note { pitch := 60, velocity := 100, channel := 0, start_tick := 96, duration_ticks := 96 },
   .other 384 [],
   .other 96 [],
   .note { pitch := 62, velocity := 100, channel := 0, start_tick := 0, duration_ticks := 96 }]

/-- C3 (counterexample).  On `tieNotes` the exported list has the noteOn
at tick 96 before the noteOff at tick 96: the claimed tie-break does not
hold when 'other' messages share the tick. -/
theorem notesToMessages_tiebreak_cex :
    ¬ offBeforeOnAt 96 (notesToMessages tieNotes) := by
  have heval : notesToMessages tieNotes
      = [{ type := .noteOn, pitch := 62, velocity := 100, time := 0, channel := 0 },
         { type := .noteOn, pitch := 60, velocity := 100, time := 96, channel := 0 },
         { type := .other, time := 96 },
         { type := .noteOff, pitch := 62, velocity := 0, time := 96, channel := 0 },
         { type := .noteOff, pitch := 60, velocity := 0, time := 192, channel := 0 },
         { type := .other, time := 384 }] := by
    simp [notesToMessages, tieNotes, rawMessages, onMsg, offMsg, List.mergeSort,
      List.splitInTwo, List.splitAt, List.splitAt.go, List.merge, exportLE]
  rw [heval]
  decide

/-- One-note timeline used by the C3 witness. -/
def demoNote : Note :=
  { pitch := 60, velocity := 100, channel := 0, start_tick := 0, duration_ticks := 96 }

/-- Witness for C3 (amended) at the one-note timeline and `t = 0`. -/
theorem notesToMessages_sorted_witness :
    (∀ m ∈ notesToMessages [TLEvent.note demoNote], ¬(m.type = .other ∧ m.time = 0))
    ∧ offBeforeOnAt 0 (notesToMessages [TLEvent.note demoNote]) := by
  have heval : notesToMessages [TLEvent.note demoNote]
      = [onMsg demoNote, offMsg demoNote] := by
    unfold notesToMessages
    have hraw : rawMessages [TLEvent.note demoNote]
        = [onMsg demoNote, offMsg demoNote] := rfl
    rw [hraw]
    exact List.mergeSort_of_sorted (by decide)
  have hno : ∀ m ∈ notesToMessages [TLEvent.note demoNote],
      ¬(m.type = .other ∧ m.time = 0) := by
    rw [heval]
    decide
  exact ⟨hno, (notesToMessages_sorted _).2 0 hno⟩

/-! ## Playback scheduler (C4)

`_buildLookaheadEvents` flattens the timeline into noteOn/noteOff/other
events sorted by tick; `_playbackLoop` fires every event whose tick lies
in `[playheadTick, playheadTick + elapsedTicks)`, skipping muted
channels, advances the playhead, and stops (resetting to 0) once the
playhead passes `songDurationTicks`.  Ticks are rationals (JS numbers);
an 'other' lookahead event has no `channel` field (`undefined` in JS,
never a member of the muted set). -/

structure LookEvent where
  type : MsgType
  tick : ℚ
  pitch : Nat := 0
  velocity : Nat := 0
  channel : Option Nat := none
  msg : List Nat := []
  isPlaying : Bool := false
deriving DecidableEq, Repr

/-- Sort order of `_buildLookaheadEvents` (`(a, b) => a.tick - b.tick`). -/
def lookLE (a b : LookEvent) : Bool :=
  a.tick ≤ b.tick

/-- `_buildLookaheadEvents` (lines 952-968). -/
def buildLookaheadEvents (notes : List TLEvent) : List LookEvent :=
  (notes.flatMap fun e =>
    match e with
    | .other t m => [{ type := .other, tick := (t : ℚ), msg := m }]
    | .note n =>
        [{ type := .noteOn, tick := (n.start_tick : ℚ), pitch := n.pitch,
           velocity := n.velocity, channel := some n.channel, isPlaying := false },
         { type := .noteOff, tick := ((n.start_tick + n.duration_ticks : Int) : ℚ),
           pitch := n.pitch, channel := some n.channel }]).mergeSort lookLE

structure PlaybackState where
  isPlaying : Bool
  playheadTick : ℚ
  songDurationTicks : ℚ
  lookaheadEvents : List LookEvent
  mutedChannels : List Nat
deriving DecidableEq, Repr

/-- `this.state.mutedChannels.has(e.channel)`: an 'other' event's channel
is `undefined` and never a member of the set. -/
def isMuted (muted : List Nat) (e : LookEvent) : Bool :=
  match e.channel with
  | some c => muted.contains c
  | none => false

/-- The firing condition of the `forEach` in `_playbackLoop`: tick in the
half-open frame window, channel not muted. -/
def fireGuard (playheadTick newPlayheadTick : ℚ) (muted : List Nat)
    (e : LookEvent) : Bool :=
  decide (playheadTick ≤ e.tick) && decide (e.tick < newPlayheadTick)
    && !(isMuted muted e)

/-- `Array.prototype.find` followed by a single field write. -/
def updateFirst (p : LookEvent → Bool) (f : LookEvent → LookEvent) :
    List LookEvent → List LookEvent
  | [] => []
  | x :: xs => if p x then f x :: xs else x :: updateFirst p f xs

/-- The `isPlaying` bookkeeping done for each fired event: a fired noteOn
marks the first matching noteOn event playing; a fired noteOff clears the
first matching playing noteOn at an earlier tick; 'other' events change
nothing. -/
def flagStep (events : List LookEvent) (e : LookEvent) : List LookEvent :=
  match e.type with
  | .noteOn =>
      updateFirst
        (fun ev => decide (ev.type = .noteOn) && decide (ev.tick = e.tick)
          && decide (ev.pitch = e.pitch) && decide (ev.channel = e.channel))
        (fun ev => { ev with isPlaying := true }) events
  | .noteOff =>
      updateFirst
        (fun ev => decide (ev.type = .noteOn) && decide (ev.tick < e.tick)
          && decide (ev.pitch = e.pitch) && decide (ev.channel = e.channel)
          && ev.isPlaying)
        (fun ev => { ev with isPlaying := false }) events
  | .other => events

/-- State effect of `stop()` (which calls `pause()`): playback halts and
the playhead resets to 0.  The MIDI messages `pause()` emits are modelled
separately by `pauseEmits`. -/
def stopState (s : PlaybackState) : PlaybackState :=
  { s with isPlaying := false, playheadTick := 0 }

/-- One `_playbackLoop` frame with `elapsedTicks` already computed from
the wall clock: returns the successor state and the list of events fired
(in list order, which is tick order for a sorted lookahead list). -/
def playbackFrame (s : PlaybackState) (elapsedTicks : ℚ) :
    PlaybackState × List LookEvent :=
  if s.isPlaying = false then (s, []) else
  let newPlayheadTick := s.playheadTick + elapsedTicks
  let fired := s.lookaheadEvents.filter
    (fireGuard s.playheadTick newPlayheadTick s.mutedChannels)
  let events2 := fired.foldl flagStep s.lookaheadEvents
  let s2 := { s with lookaheadEvents := events2, playheadTick := newPlayheadTick }
  if newPlayheadTick > s.songDurationTicks then (stopState s2, fired) else (s2, fired)

theorem buildLookaheadEvents_sorted (notes : List TLEvent) :
    ((buildLookaheadEvents notes).Pairwise fun a b => a.tick ≤ b.tick) := by
  have htrans : ∀ a b c : LookEvent, lookLE a b → lookLE b c → lookLE a c := by
    intro a b c hab hbc
    simp only [lookLE, decide_eq_true_eq] at hab hbc ⊢
    exact le_trans hab hbc
  have htotal : ∀ a b : LookEvent, lookLE a b || lookLE b a := by
    intro a b
    simp only [lookLE]
    by_cases h : a.tick ≤ b.tick
    · simp [h]
    · simp [le_of_not_le h]
  have := List.sorted_mergeSort htrans htotal
    (notes.flatMap fun e =>
      match e with
      | .other t m => [{ type := .other, tick := (t : ℚ), msg := m }]
      | .note n =>
          [{ type := .noteOn, tick := (n.start_tick : ℚ), pitch := n.pitch,
             velocity := n.velocity, channel := some n.channel, isPlaying := false },
           { type := .noteOff, tick := ((n.start_tick + n.duration_ticks : Int) : ℚ),
             pitch := n.pitch, channel := some n.channel }])
  exact this.imp (fun h => by simpa [lookLE] using h)

/-- C4.  Playback firing: in a playing frame with `elapsedTicks` elapsed,
the scheduler fires exactly the lookahead events with tick in
`[playheadTick, playheadTick + elapsedTicks)` whose channel is not
muted, in non-decreasing tick order (the lookahead list built by
`_buildLookaheadEvents` being tick-sorted), then advances the playhead
by `elapsedTicks`; whenever the advanced playhead exceeds
`songDurationTicks` playback stops and the playhead resets to 0. -/
theorem playbackLoop_spec (s : PlaybackState) (elapsedTicks : ℚ)
    (hplay : s.isPlaying = true)
    (hsorted : s.lookaheadEvents.Pairwise fun a b => a.tick ≤ b.tick) :
    (∀ e, e ∈ (playbackFrame s elapsedTicks).2 ↔
        e ∈ s.lookaheadEvents
        ∧ (s.playheadTick ≤ e.tick ∧ e.tick < s.playheadTick + elapsedTicks)
        ∧ isMuted s.mutedChannels e = false)
    ∧ ((playbackFrame s elapsedTicks).2.Pairwise fun a b => a.tick ≤ b.tick)
    ∧ (s.playheadTick + elapsedTicks ≤ s.songDurationTicks →
        (playbackFrame s elapsedTicks).1.playheadTick = s.playheadTick + elapsedTicks
        ∧ (playbackFrame s elapsedTicks).1.isPlaying = true)
    ∧ (s.playheadTick + elapsedTicks > s.songDurationTicks →
        (playbackFrame s elapsedTicks).1.isPlaying = false
        ∧ (playbackFrame s elapsedTicks).1.playheadTick = 0)
    ∧ (∀ notes, ((buildLookaheadEvents notes).Pairwise fun a b => a.tick ≤ b.tick)) := by
  have hfr : playbackFrame s elapsedTicks
      = (if s.playheadTick + elapsedTicks > s.songDurationTicks
          then stopState { s with
            lookaheadEvents := (s.lookaheadEvents.filter
              (fireGuard s.playheadTick (s.playheadTick + elapsedTicks) s.mutedChannels)).foldl
                flagStep s.lookaheadEvents,
            playheadTick := s.playheadTick + elapsedTicks }
          else { s with
            lookaheadEvents := (s.lookaheadEvents.filter
              (fireGuard s.playheadTick (s.playheadTick + elapsedTicks) s.mutedChannels)).foldl
                flagStep s.lookaheadEvents,
            playheadTick := s.playheadTick + elapsedTicks },
        s.lookaheadEvents.filter
          (fireGuard s.playheadTick (s.playheadTick + elapsedTicks) s.mutedChannels)) := by
    rw [playbackFrame, if_neg (by rw [hplay]; simp)]
    by_cases hend : s.playheadTick + elapsedTicks > s.songDurationTicks
    · rw [if_pos hend, if_pos hend]
    · rw [if_neg hend, if_neg hend]
  refine ⟨?_, ?_, ?_, ?_, fun notes => buildLookaheadEvents_sorted notes⟩
  · intro e
    rw [hfr]
    simp only [List.mem_filter, fireGuard, Bool.and_eq_true, decide_eq_true_eq,
      Bool.not_eq_true']
  · rw [hfr]
    exact hsorted.sublist (List.filter_sublist _)
  · intro hle
    rw [hfr]
    rw [if_neg (by exact not_lt.mpr hle)]
    exact ⟨rfl, hplay⟩
  · intro hgt
    rw [hfr]
    rw [if_pos hgt]
    exact ⟨rfl, rfl⟩

/-- One-event playback state used by the C4 witness. -/
def demoPlayback : PlaybackState :=
  { isPlaying := true, playheadTick := 0, songDurationTicks := 10,
    lookaheadEvents := [{ type := .noteOn, tick := 5, pitch := 60,
                          velocity := 100, channel := some 0 }],
    mutedChannels := [] }

/-- Witness for C4 at a one-event lookahead list. -/
theorem playbackLoop_spec_witness :
    (∀ e, e ∈ (playbackFrame demoPlayback 3).2 ↔
        e ∈ demoPlayback.lookaheadEvents
        ∧ (demoPlayback.playheadTick ≤ e.tick
            ∧ e.tick < demoPlayback.playheadTick + 3)
        ∧ isMuted demoPlayback.mutedChannels e = false)
    ∧ ((playbackFrame demoPlayback 3).2.Pairwise fun a b => a.tick ≤ b.tick)
    ∧ (demoPlayback.playheadTick + 3 ≤ demoPlayback.songDurationTicks →
        (playbackFrame demoPlayback 3).1.playheadTick = demoPlayback.playheadTick + 3
        ∧ (playbackFrame demoPlayback 3).1.isPlaying = true)
    ∧ (demoPlayback.playheadTick + 3 > demoPlayback.songDurationTicks →
        (playbackFrame demoPlayback 3).1.isPlaying = false
        ∧ (playbackFrame demoPlayback 3).1.playheadTick = 0)
    ∧ (∀ notes, ((buildLookaheadEvents notes).Pairwise fun a b => a.tick ≤ b.tick)) :=
  playbackLoop_spec demoPlayback 3 rfl (by simp [demoPlayback])

/-! ## Stop / pause emissions (C5)

`stop()` calls `pause()` and resets the playhead (`stopState` above);
`pause()` walks the lookahead list and emits `onStopNote` only for
events whose `isPlaying` flag is set.  There is no per-channel
"all sound off" in this component. -/

structure StopMsg where
  pitch : Nat
  channel : Option Nat
deriving DecidableEq, Repr

/-- The messages emitted by `pause()` (lines 474-480): one stop-note per
lookahead event with `isPlaying` set, in list order. -/
def pauseEmits (s : PlaybackState) : List StopMsg :=
  (s.lookaheadEvents.filter fun e => e.isPlaying).map
    fun e => { pitch := e.pitch, channel := e.channel }

/-- A playback state holding a lookahead noteOn on channel 3 whose
`isPlaying` flag is not set (exactly the state after
`_buildLookaheadEvents`, before any frame fires it). -/
def stalePlayback : PlaybackState :=
  { isPlaying := true, playheadTick := 0, songDurationTicks := 10,
    lookaheadEvents := [{ type := .noteOn, tick := 0, pitch := 60,
                          velocity := 100, channel := some 3, isPlaying := false }],
    mutedChannels := [] }

/-- C5 (counterexample).  Stopping does not unconditionally emit anything
per channel: on `stalePlayback` the pause invoked by stop emits no
message at all, so no channel receives an "all sound off". -/
theorem pause_allSoundOff_cex :
    pauseEmits stalePlayback = []
    ∧ ¬ (∀ ch < 16, ∃ m ∈ pauseEmits stalePlayback, m.channel = some ch) := by
  have he : pauseEmits stalePlayback = [] := rfl
  refine ⟨he, ?_⟩
  intro h
  obtain ⟨m, hm, _⟩ := h 0 (by norm_num)
  rw [he] at hm
  exact absurd hm (List.not_mem_nil m)

/-- C5 (amended).  `pause()` (invoked by `stop()`) emits a stop-note for
exactly those lookahead events whose `isPlaying` flag is set — not an
unconditional per-channel all-sound-off; a sounding note whose flag is
unset receives nothing. -/
theorem pauseEmits_spec (s : PlaybackState) :
    ∀ m, m ∈ pauseEmits s ↔
      ∃ e ∈ s.lookaheadEvents, e.isPlaying = true
        ∧ m = { pitch := e.pitch, channel := e.channel } := by
  intro m
  unfold pauseEmits
  rw [List.mem_map]
  constructor
  · rintro ⟨e, he, rfl⟩
    rcases List.mem_filter.mp he with ⟨hmem, hplay⟩
    exact ⟨e, hmem, hplay, rfl⟩
  · rintro ⟨e, hmem, hplay, rfl⟩
    exact ⟨e, List.mem_filter.mpr ⟨hmem, hplay⟩, rfl⟩

/-- A playback state with one playing lookahead event, for the C5
witness. -/
def soundingPlayback : PlaybackState :=
  { isPlaying := true, playheadTick := 0, songDurationTicks := 10,
    lookaheadEvents := [{ type := .noteOn, tick := 0, pitch := 60,
                          velocity := 100, channel := some 3, isPlaying := true }],
    mutedChannels := [] }

/-- Witness for C5 (amended) at a state with one playing event. -/
theorem pauseEmits_spec_witness :
    ({ pitch := 60, channel := some 3 } : StopMsg) ∈ pauseEmits soundingPlayback
    ↔ ∃ e ∈ soundingPlayback.lookaheadEvents, e.isPlaying = true
        ∧ ({ pitch := 60, channel := some 3 } : StopMsg)
            = { pitch := e.pitch, channel := e.channel } :=
  pauseEmits_spec soundingPlayback { pitch := 60, channel := some 3 }

/-! ## Song duration recomputation (C6)

`_recalculateSongDuration` (lines 532-540) folds over `state.notes`
taking the maximum of `n.start_tick + n.duration_ticks`.  For an 'other'
record both fields are `undefined`, the sum is `NaN`, and `NaN > lastTick`
is false, so 'other' events never contribute; the fold simply keeps the
accumulator there.  `_setTrackParameter` (lines 1236-1262) inserts an
'other' event and rebuilds the lookahead list without ever calling
`_recalculateSongDuration`. -/

/-- One iteration of the `forEach` in `_recalculateSongDuration`; the
'other' arm records the JS `NaN > lastTick = false` comparison. -/
def recalcStep (lastTick : Int) (e : TLEvent) : Int :=
  match e with
  | .note n =>
      if n.start_tick + n.duration_ticks > lastTick
      then n.start_tick + n.duration_ticks else lastTick
  | .other _ _ => lastTick

/-- `_recalculateSongDuration` restricted to its output value. -/
def recalculateSongDuration (notes : List TLEvent) : Int :=
  notes.foldl recalcStep 0

/-- End tick of a timeline event as the claim reads it: a note ends at
`start_tick + duration_ticks`, an OtherEvent is anchored at its time. -/
def eventEnd : TLEvent → Int
  | .note n => n.start_tick + n.duration_ticks
  | .other t _ => t

/-- C6 (counterexample).  An OtherEvent anchored at tick 1000, past the
only note's end (96), is ignored by the recomputation: the recomputed
duration is 96, below the event's end tick. -/
theorem recalculateSongDuration_cex :
    recalculateSongDuration [TLEvent.note demoNote, TLEvent.other 1000 []] = 96
    ∧ ¬ (∀ e ∈ [TLEvent.note demoNote, TLEvent.other 1000 []],
          eventEnd e ≤ recalculateSongDuration
            [TLEvent.note demoNote, TLEvent.other 1000 []]) := by
  constructor
  · rfl
  · intro h
    have := h (TLEvent.other 1000 []) (by simp)
    rw [show recalculateSongDuration [TLEvent.note demoNote, TLEvent.other 1000 []]
        = 96 from rfl] at this
    simp [eventEnd] at this

theorem recalc_foldl_mono : ∀ (l : List TLEvent) (a : Int), a ≤ l.foldl recalcStep a
  | [], a => le_refl a
  | e :: rest, a => by
    refine le_trans ?_ (recalc_foldl_mono rest (recalcStep a e))
    match e with
    | .note n =>
        unfold recalcStep
        split
        · omega
        · exact le_refl a
    | .other t m => exact le_refl a

theorem recalc_foldl_ge :
    ∀ (l : List TLEvent) (a : Int) (n : Note), TLEvent.note n ∈ l →
      n.start_tick + n.duration_ticks ≤ l.foldl recalcStep a
  | [], _, _, h => absurd h (List.not_mem_nil _)
  | e :: rest, a, n, h => by
    rcases List.mem_cons.mp h with hEq | hmem
    · rw [List.foldl_cons, ← hEq]
      refine le_trans ?_ (recalc_foldl_mono rest _)
      simp only [recalcStep]
      split <;> omega
    · exact recalc_foldl_ge rest (recalcStep a e) n hmem

/-- C6 (amended).  The recomputed `songDurationTicks` is greater than or
equal to the end tick of every note record; OtherEvents are not part of
the maximum ('other' records contribute `NaN` to the JS comparison,
which is never greater), and `_setTrackParameter` inserts an OtherEvent
without recomputing the duration at all. -/
theorem recalculateSongDuration_ge_notes (notes : List TLEvent) :
    ∀ n : Note, TLEvent.note n ∈ notes →
      n.start_tick + n.duration_ticks ≤ recalculateSongDuration notes := by
  intro n hn
  exact recalc_foldl_ge notes 0 n hn

/-- Witness for C6 (amended) at a two-event timeline. -/
theorem recalculateSongDuration_ge_notes_witness :
    TLEvent.note demoNote ∈ [TLEvent.note demoNote, TLEvent.other 1000 []]
    ∧ demoNote.start_tick + demoNote.duration_ticks
        ≤ recalculateSongDuration [TLEvent.note demoNote, TLEvent.other 1000 []] :=
  ⟨by simp, recalculateSongDuration_ge_notes _ demoNote (by simp)⟩

/-! ## Undo/redo history (C7)

Every mutating action in the source calls `_saveStateForUndo` (which
clears the redo stack, pushes a deep snapshot and drops the oldest entry
over the cap `MAX_HISTORY = 25`) and then mutates `state.notes`;
`undo()`/`redo()` move one snapshot between the stacks. -/

structure HistState where
  notes : List TLEvent
  undoHistory : List (List TLEvent)
  redoHistory : List (List TLEvent)
deriving DecidableEq, Repr

/-- `this.MAX_HISTORY` (line 17). -/
def MAX_HISTORY : Nat := 25

/-- `_saveStateForUndo` (lines 1266-1272): clear redo, push a snapshot of
the current notes, `shift()` away the oldest entry when over the cap. -/
def saveStateForUndo (h : HistState) : HistState :=
  { h with redoHistory := [],
           undoHistory :=
             if (h.undoHistory ++ [h.notes]).length > MAX_HISTORY
             then (h.undoHistory ++ [h.notes]).drop 1
             else h.undoHistory ++ [h.notes] }

/-- `undo()` (lines 498-505), restricted to the history fields: push the
current notes on redo, pop the latest undo snapshot into the notes. -/
def undoOp (h : HistState) : HistState :=
  match h.undoHistory.getLast? with
  | none => h
  | some prev =>
      { h with redoHistory := h.redoHistory ++ [h.notes],
               undoHistory := h.undoHistory.dropLast,
               notes := prev }

/-- `redo()` (lines 506-513), the mirror image. -/
def redoOp (h : HistState) : HistState :=
  match h.redoHistory.getLast? with
  | none => h
  | some next =>
      { h with undoHistory := h.undoHistory ++ [h.notes],
               redoHistory := h.redoHistory.dropLast,
               notes := next }

inductive HistAction where
  | mutate (newNotes : List TLEvent)
  | undoA
  | redoA
deriving DecidableEq, Repr

/-- A mutating action snapshots and then writes the new note collection;
undo and redo as in the source. -/
def histStep (h : HistState) : HistAction → HistState
  | .mutate newNotes => { saveStateForUndo h with notes := newNotes }
  | .undoA => undoOp h
  | .redoA => redoOp h

/-- Any interleaving of mutating actions, undos and redos from the
initial empty history. -/
def histRun (acts : List HistAction) : HistState :=
  acts.foldl histStep { notes := [], undoHistory := [], redoHistory := [] }

theorem histStep_invariant (h : HistState) (a : HistAction)
    (hinv : h.undoHistory.length + h.redoHistory.length ≤ MAX_HISTORY) :
    (histStep h a).undoHistory.length + (histStep h a).redoHistory.length
      ≤ MAX_HISTORY := by
  cases a with
  | mutate nn =>
    simp only [histStep, saveStateForUndo]
    by_cases hcond : (h.undoHistory ++ [h.notes]).length > MAX_HISTORY
    · rw [if_pos hcond]
      simp only [List.length_drop, List.length_append, List.length_cons,
        List.length_nil] at hcond ⊢
      omega
    · rw [if_neg hcond]
      simp only [List.length_append, List.length_cons, List.length_nil] at hcond ⊢
      omega
  | undoA =>
    simp only [histStep, undoOp]
    match hl : h.undoHistory.getLast? with
    | none => exact hinv
    | some prev =>
      have hne : h.undoHistory ≠ [] := by
        intro hnil
        rw [hnil] at hl
        simp at hl
      have : 0 < h.undoHistory.length := List.length_pos.mpr hne
      simp only [List.length_dropLast, List.length_append, List.length_cons,
        List.length_nil]
      omega
  | redoA =>
    simp only [histStep, redoOp]
    match hl : h.redoHistory.getLast? with
    | none => exact hinv
    | some next =>
      have hne : h.redoHistory ≠ [] := by
        intro hnil
        rw [hnil] at hl
        simp at hl
      have : 0 < h.redoHistory.length := List.length_pos.mpr hne
      simp only [List.length_dropLast, List.length_append, List.length_cons,
        List.length_nil]
      omega

theorem histRun_go_invariant :
    ∀ (acts : List HistAction) (h : HistState),
    h.undoHistory.length + h.redoHistory.length ≤ MAX_HISTORY →
    (acts.foldl histStep h).undoHistory.length
      + (acts.foldl histStep h).redoHistory.length ≤ MAX_HISTORY
  | [], h, hinv => hinv
  | a :: rest, h, hinv => by
    rw [List.foldl_cons]
    exact histRun_go_invariant rest (histStep h a) (histStep_invariant h a hinv)

/-- C7.  After any interleaving of mutating actions, undos and redos:
the two stacks together never hold more than 25 snapshots; every new
mutating action leaves the redo stack empty and the undo stack at depth
at most 25; and when the undo stack is full, the cap is enforced by
discarding the oldest snapshot. -/
theorem undoHistory_invariant (acts : List HistAction) :
    (histRun acts).undoHistory.length + (histRun acts).redoHistory.length ≤ MAX_HISTORY
    ∧ (∀ newNotes, (histStep (histRun acts) (.mutate newNotes)).redoHistory = []
        ∧ (histStep (histRun acts) (.mutate newNotes)).undoHistory.length ≤ MAX_HISTORY)
    ∧ ((histRun acts).undoHistory.length = MAX_HISTORY →
        ∀ newNotes, (histStep (histRun acts) (.mutate newNotes)).undoHistory
          = (histRun acts).undoHistory.drop 1 ++ [(histRun acts).notes]) := by
  have hinv : (histRun acts).undoHistory.length
      + (histRun acts).redoHistory.length ≤ MAX_HISTORY := by
    unfold histRun
    exact histRun_go_invariant acts
      { notes := [], undoHistory := [], redoHistory := [] } (by simp [MAX_HISTORY])
  refine ⟨hinv, ?_, ?_⟩
  · intro newNotes
    refine ⟨rfl, ?_⟩
    simp only [histStep, saveStateForUndo]
    by_cases hcond : ((histRun acts).undoHistory
        ++ [(histRun acts).notes]).length > MAX_HISTORY
    · rw [if_pos hcond]
      simp only [List.length_drop, List.length_append, List.length_cons,
        List.length_nil] at hcond ⊢
      omega
    · rw [if_neg hcond]
      simp only [List.length_append, List.length_cons, List.length_nil] at hcond ⊢
      omega
  · intro hfull newNotes
    simp only [histStep, saveStateForUndo]
    rw [if_pos (by
      simp only [List.length_append, List.length_cons, List.length_nil, hfull]
      omega)]
    rw [List.drop_append_of_le_length (by rw [hfull]; norm_num [MAX_HISTORY])]

/-- Witness for C7: after 26 mutating actions the undo stack sits at the
cap and the next snapshot discards the oldest entry. -/
theorem undoHistory_invariant_witness :
    (histRun (List.replicate 26 (HistAction.mutate []))).undoHistory.length = MAX_HISTORY
    ∧ (histStep (histRun (List.replicate 26 (HistAction.mutate [])))
        (.mutate [])).undoHistory
      = (histRun (List.replicate 26 (HistAction.mutate []))).undoHistory.drop 1
        ++ [(histRun (List.replicate 26 (HistAction.mutate []))).notes] :=
  ⟨by decide, (undoHistory_invariant (List.replicate 26 (HistAction.mutate []))).2.2
      (by decide) []⟩

/-! ## Note resizing (C8)

`_handleResizeMouseDown` records `originalDuration` on every selected
note and the anchor tick `resizeStartTicks`; each pointer-move
(`_handleNoteResize`) recomputes `duration_ticks` from those fixed
values, clamped below by `ppqn / 16`. -/

structure ResizeNote where
  pitch : Nat
  velocity : Nat
  channel : Nat
  start_tick : ℚ
  duration_ticks : ℚ
  originalDuration : ℚ
deriving DecidableEq, Repr

/-- `_handleNoteResize` (lines 1112-1123): one pointer-move writes
`Math.max(ppqn / 16, originalDuration + (currentTick - resizeStartTicks))`
into every selected note. -/
def handleNoteResize (ppqn resizeStartTicks currentTick : ℚ)
    (selected : List ResizeNote) : List ResizeNote :=
  selected.map fun n =>
    { n with
      duration_ticks := max (ppqn / 16)
        (n.originalDuration + (currentTick - resizeStartTicks)) }

/-- A resize gesture: the anchor is fixed at pointer-down, then each
pointer-move in `ticks` applies `_handleNoteResize`. -/
def resizeMoves (ppqn resizeStartTicks : ℚ) (selected : List ResizeNote)
    (ticks : List ℚ) : List ResizeNote :=
  ticks.foldl (fun sel t => handleNoteResize ppqn resizeStartTicks t sel) selected

theorem handleNoteResize_comp (ppqn a t1 t2 : ℚ) (sel : List ResizeNote) :
    handleNoteResize ppqn a t2 (handleNoteResize ppqn a t1 sel)
      = handleNoteResize ppqn a t2 sel := by
  unfold handleNoteResize
  rw [List.map_map]
  rfl

theorem resizeMoves_last (ppqn a : ℚ) :
    ∀ (ts : List ℚ) (t0 : ℚ) (sel : List ResizeNote),
    resizeMoves ppqn a sel (t0 :: ts)
      = handleNoteResize ppqn a (ts.getLastD t0) sel
  | [], t0, sel => rfl
  | t1 :: ts, t0, sel => by
    show resizeMoves ppqn a (handleNoteResize ppqn a t0 sel) (t1 :: ts) = _
    rw [resizeMoves_last ppqn a ts t1 (handleNoteResize ppqn a t0 sel)]
    rw [handleNoteResize_comp]
    rw [List.getLastD_cons]

/-- C8.  Duration floor: each pointer-move of a resize gesture sets every
selected note's `duration_ticks` to
`max(ppqn/16, originalDuration + (currentTick - resizeStartTicks))`, and
after any nonempty sequence of moves no resized note's duration is below
`ppqn / 16`. -/
theorem noteResize_floor (ppqn resizeStartTicks : ℚ) (selected : List ResizeNote) :
    (∀ currentTick : ℚ,
      ∀ m ∈ handleNoteResize ppqn resizeStartTicks currentTick selected,
        m.duration_ticks
          = max (ppqn / 16) (m.originalDuration + (currentTick - resizeStartTicks))
        ∧ ppqn / 16 ≤ m.duration_ticks)
    ∧ (∀ (t0 : ℚ) (ts : List ℚ),
      ∀ m ∈ resizeMoves ppqn resizeStartTicks selected (t0 :: ts),
        ppqn / 16 ≤ m.duration_ticks) := by
  have hmove : ∀ currentTick : ℚ,
      ∀ m ∈ handleNoteResize ppqn resizeStartTicks currentTick selected,
        m.duration_ticks
          = max (ppqn / 16) (m.originalDuration + (currentTick - resizeStartTicks))
        ∧ ppqn / 16 ≤ m.duration_ticks := by
    intro currentTick m hm
    obtain ⟨n, _, rfl⟩ := List.mem_map.mp hm
    exact ⟨rfl, le_max_left _ _⟩
  refine ⟨hmove, ?_⟩
  intro t0 ts m hm
  rw [resizeMoves_last] at hm
  obtain ⟨n, _, rfl⟩ := List.mem_map.mp hm
  exact le_max_left _ _

/-- Selected note used by the C8 witness. -/
def demoResize : ResizeNote :=
  { pitch := 60, velocity := 100, channel := 0, start_tick := 0,
    duration_ticks := 96, originalDuration := 96 }

/-- Witness for C8: one move at tick 5 with anchor 0 and `ppqn = 96`. -/
theorem noteResize_floor_witness :
    ∃ m ∈ resizeMoves 96 0 [demoResize] [5], (96 : ℚ) / 16 ≤ m.duration_ticks := by
  have hmem : ({ demoResize with
      duration_ticks := max ((96 : ℚ) / 16)
        (demoResize.originalDuration + (5 - 0)) } : ResizeNote)
      ∈ resizeMoves 96 0 [demoResize] [5] := by
    show _ ∈ handleNoteResize 96 0 5 [demoResize]
    exact List.mem_cons_self _ _
  exact ⟨_, hmem, (noteResize_floor 96 0 [demoResize]).2 5 [] _ hmem⟩

/-! ## Pointer-capture broker (C9)

`EventBroker.processResult` stores/clears `capturedControl` per the
result action.  `Drawer.handleEvent` synthesizes an outside-click event
with `owner: null` for a captured control when the pointer falls outside
the drawer — but it delivers it through `EventBroker.dispatchEvent`,
which overwrites the owner with the captured control itself before
calling the handler.  Controls are identified by ids; their `handleEvent`
methods are an environment parameter. -/

inductive PtrType where
  | pointerdown
  | pointermove
  | pointerup
deriving DecidableEq, Repr

structure PtrEvent where
  type : PtrType
  x : ℚ
  y : ℚ
  owner : Option Nat := none
deriving DecidableEq, Repr

inductive BrokerAction where
  | capture
  | release
  | persist
deriving DecidableEq, Repr

structure HandlerResult where
  action : BrokerAction
  control : Option Nat := none
deriving DecidableEq, Repr

structure Broker where
  capturedControl : Option Nat
deriving DecidableEq, Repr

/-- `EventBroker.processResult` (part_000 lines 1861-1876): store the
returned control on `capture`, clear on `release` (a no-op when nothing
is captured), do nothing on `persist` or a null result. -/
def processResult (b : Broker) (r : Option HandlerResult) : Broker :=
  match r with
  | none => b
  | some res =>
      match res.action with
      | .capture => { b with capturedControl := res.control }
      | .release =>
          if b.capturedControl.isSome then { b with capturedControl := none } else b
      | .persist => b

/-- `EventBroker.dispatchEvent` (part_000 lines 1843-1858) for non-wheel
events: with a captured control every event is re-owned by it —
`{ ...event, owner: this.capturedControl }` overwrites whatever owner
the caller set — delivered, and the result processed; otherwise the
event goes to the hit-tested target.  Returns the new broker state and
the (control, event-as-delivered) list. -/
def dispatchEvent (env : Nat → PtrEvent → Option HandlerResult) (b : Broker)
    (event : PtrEvent) (target : Option Nat) : Broker × List (Nat × PtrEvent) :=
  match b.capturedControl with
  | some c =>
      (processResult b (env c { event with owner := some c }),
       [(c, { event with owner := some c })])
  | none =>
      match target with
      | some t =>
          (processResult b (env t { event with owner := some t }),
           [(t, { event with owner := some t })])
      | none => (b, [])

/-- Drawer geometry read by `handleEvent`: `isPointInBounds(x, y)` is
`y < calculatedHeight`. -/
structure DrawerState where
  calculatedHeight : ℚ
  scrollOffsetX : ℚ
  scrollOffsetY : ℚ
deriving DecidableEq, Repr

/-- `Drawer.handleEvent` (part_000 lines 1382-1412) for a non-wheel event
while control `c` is captured (priorities 0 and 1; the un-captured
priorities 2-4 are drawer-internal interactions outside this claim):
an out-of-bounds event is first scroll-adjusted in place, then — still
out of bounds — dispatched as a synthesized outside click built with
`owner: null`; an in-bounds event is translated into drawer space and
dispatched. -/
def drawerHandleEventCaptured (env : Nat → PtrEvent → Option HandlerResult)
    (d : DrawerState) (c : Nat) (event0 : PtrEvent) : Broker × List (Nat × PtrEvent) :=
  let b : Broker := { capturedControl := some c }
  let event :=
    if ¬ (event0.y < d.calculatedHeight)
    then { event0 with x := event0.x + d.scrollOffsetX, y := event0.y + d.scrollOffsetY }
    else event0
  if ¬ (event.y < d.calculatedHeight) then
    dispatchEvent env b { event with owner := none } (some c)
  else
    dispatchEvent env b
      { event with x := event.x + d.scrollOffsetX, y := event.y + d.scrollOffsetY }
      (some c)

/-- The outside-click detection idiom of the composite widgets
(`PopupSliderControl.onPointerDown`, part_000 line 1218): close and
release when the event's owner is not the control itself. -/
def ownerCheckHandler (self : Nat) (e : PtrEvent) : Option HandlerResult :=
  if e.owner ≠ some self then some { action := .release } else none

/-- The failing pointer-down for C9: drawer 100px tall, no scroll,
control 7 captured, pointer at (5, 150) — below the drawer. -/
def outsideClick : PtrEvent :=
  { type := .pointerdown, x := 5, y := 150, owner := none }

/-- C9 (code_bug evaluation).  On the failing input exactly one event is
delivered, to the captured control only — but its owner is the captured
control itself, not the null owner the drawer synthesized
(`dispatchEvent` overwrites it, contradicting the source's own
`owner: null ... because it's an outside click` construction): a widget
using the `owner !== this` idiom returns null and capture survives the
outside click, while a handler that does return `release` leaves
`capturedControl` null. -/
theorem drawer_outside_click_owner_bug :
    ((drawerHandleEventCaptured (fun _ e => ownerCheckHandler 7 e)
        { calculatedHeight := 100, scrollOffsetX := 0, scrollOffsetY := 0 }
        7 outsideClick).2
      = [(7, { type := .pointerdown, x := 5, y := 150, owner := some 7 })])
    ∧ ((drawerHandleEventCaptured (fun _ e => ownerCheckHandler 7 e)
        { calculatedHeight := 100, scrollOffsetX := 0, scrollOffsetY := 0 }
        7 outsideClick).1.capturedControl = some 7)
    ∧ ((drawerHandleEventCaptured (fun _ _ => some { action := .release })
        { calculatedHeight := 100, scrollOffsetX := 0, scrollOffsetY := 0 }
        7 outsideClick).1.capturedControl = none) := by
  refine ⟨?_, ?_, ?_⟩ <;>
    norm_num [drawerHandleEventCaptured, dispatchEvent, processResult,
      ownerCheckHandler, outsideClick, Option.isSome]

/-! ## Pointer-up selection effects (C10)

`_onInteractionEnd` (lines 679-721): resolve `potentialDeselect`,
recompute the song duration after drag/resize/add, commit the marquee
selection, clear the selection after a drag or resize, reset all
transient flags.  (The `soundOnAdd` timer bookkeeping talks to the
external audio collaborator and carries no selection state.) -/

structure MarqueeRect where
  x1 : ℚ
  y1 : ℚ
  x2 : ℚ
  y2 : ℚ
deriving DecidableEq, Repr

structure PRConfig where
  beatWidth : ℚ
  noteHeight : ℚ
  totalPitches : ℚ
  keysWidth : ℚ
  timelineHeight : ℚ
deriving DecidableEq, Repr

structure EditState where
  notes : List TLEvent
  selectedNotes : List TLEvent
  songDurationTicks : Int
  ppqn : ℚ
  scrollX : ℚ
  scrollY : ℚ
  marquee : MarqueeRect
  isDragging : Bool
  wasAddingNote : Bool
  isResizing : Bool
  isMarqueeSelecting : Bool
  isPanning : Bool
  isDraggingPlayhead : Bool
  isDraggingVScroll : Bool
  isDraggingHScroll : Bool
  potentialDeselect : Bool
deriving DecidableEq, Repr

/-- `_tickToPixel`. -/
def tickToPixel (cfg : PRConfig) (ppqn tick : ℚ) : ℚ :=
  tick / ppqn * cfg.beatWidth

/-- `_pitchToPixel`: pitch rows are inverted. -/
def pitchToPixel (cfg : PRConfig) (pitch : ℚ) : ℚ :=
  (cfg.totalPitches - 1 - pitch) * cfg.noteHeight

structure NoteRect where
  x : ℚ
  y : ℚ
  w : ℚ
  h : ℚ
deriving DecidableEq, Repr

/-- `_getNoteRect`. -/
def getNoteRect (cfg : PRConfig) (ppqn : ℚ) (n : Note) : NoteRect :=
  { x := tickToPixel cfg ppqn (n.start_tick : ℚ),
    y := pitchToPixel cfg (n.pitch : ℚ),
    w := tickToPixel cfg ppqn (n.duration_ticks : ℚ),
    h := cfg.noteHeight }

/-- `_selectNotesInMarquee` (lines 1385-1405): normalize the marquee into
grid space and keep every record whose rectangle overlaps it.  For an
'other' record `_getNoteRect` is all-`NaN` in JS, every comparison of
the overlap test is false and the negated test is true, so 'other'
records always pass the filter. -/
def selectNotesInMarquee (cfg : PRConfig) (s : EditState) : List TLEvent :=
  s.notes.filter fun e =>
    match e with
    | .note n =>
        decide (¬((getNoteRect cfg s.ppqn n).x
              > (min s.marquee.x1 s.marquee.x2 - cfg.keysWidth + s.scrollX)
                + |s.marquee.x1 - s.marquee.x2|
          ∨ (getNoteRect cfg s.ppqn n).x + (getNoteRect cfg s.ppqn n).w
              < min s.marquee.x1 s.marquee.x2 - cfg.keysWidth + s.scrollX
          ∨ (getNoteRect cfg s.ppqn n).y
              > (min s.marquee.y1 s.marquee.y2 - cfg.timelineHeight + s.scrollY)
                + |s.marquee.y1 - s.marquee.y2|
          ∨ (getNoteRect cfg s.ppqn n).y + (getNoteRect cfg s.ppqn n).h
              < min s.marquee.y1 s.marquee.y2 - cfg.timelineHeight + s.scrollY))
    | .other _ _ => true

/-- `_onInteractionEnd` (lines 679-721), state effects in source order:
potential deselect, duration recomputation, marquee commit, selection
clear after drag/resize, transient-flag reset. -/
def onInteractionEnd (cfg : PRConfig) (s0 : EditState) : EditState :=
  let s1 := if s0.potentialDeselect then { s0 with selectedNotes := [] } else s0
  let s2 := if s1.isDragging || s1.isResizing || s1.wasAddingNote
    then { s1 with songDurationTicks := recalculateSongDuration s1.notes } else s1
  let s3 := if s2.isMarqueeSelecting
    then { s2 with selectedNotes := selectNotesInMarquee cfg s2 } else s2
  let s4 := if s3.isDragging || s3.isResizing
    then { s3 with selectedNotes := [] } else s3
  { s4 with
    isPanning := false, isDraggingPlayhead := false, isDragging := false,
    wasAddingNote := false, isResizing := false, isMarqueeSelecting := false,
    isDraggingVScroll := false, isDraggingHScroll := false, potentialDeselect := false }

/-- C10.  A pointer-up that ends a drag or resize empties
`selectedNotes` (even though the gesture operated on the selection),
while a marquee release stores exactly the marquee-selected records. -/
theorem interactionEnd_selection (cfg : PRConfig) (s : EditState) :
    ((s.isDragging = true ∨ s.isResizing = true) →
      (onInteractionEnd cfg s).selectedNotes = [])
    ∧ (s.isMarqueeSelecting = true → s.isDragging = false → s.isResizing = false →
      (onInteractionEnd cfg s).selectedNotes = selectNotesInMarquee cfg s) := by
  constructor
  · intro h
    unfold onInteractionEnd
    by_cases hp : s.potentialDeselect <;>
      by_cases hw : s.wasAddingNote <;>
        by_cases hm : s.isMarqueeSelecting <;>
          rcases h with hd | hd <;>
            simp [hp, hw, hm, hd]
  · intro hm hd hr
    unfold onInteractionEnd
    by_cases hp : s.potentialDeselect <;>
      by_cases hw : s.wasAddingNote <;>
        simp [hp, hw, hm, hd, hr, selectNotesInMarquee]

/-- Marquee-selecting state used by the C10 witness. -/
def demoEdit : EditState :=
  { notes := [TLEvent.note demoNote], selectedNotes := [],
    songDurationTicks := 96, ppqn := 96, scrollX := 0, scrollY := 0,
    marquee := { x1 := 0, y1 := 0, x2 := 500, y2 := 500 },
    isDragging := false, wasAddingNote := false, isResizing := false,
    isMarqueeSelecting := true, isPanning := false, isDraggingPlayhead := false,
    isDraggingVScroll := false, isDraggingHScroll := false,
    potentialDeselect := false }

/-- Piano-roll geometry defaults (src/PianoRoll.js `config`). -/
def demoCfg : PRConfig :=
  { beatWidth := 64, noteHeight := 16, totalPitches := 128,
    keysWidth := 100, timelineHeight := 30 }

/-- Witness for C10: a marquee release on `demoEdit` commits the marquee
selection; a dragging variant of the state ends with nothing selected. -/
theorem interactionEnd_selection_witness :
    ((onInteractionEnd demoCfg demoEdit).selectedNotes
      = selectNotesInMarquee demoCfg demoEdit)
    ∧ ((onInteractionEnd demoCfg
        { demoEdit with isMarqueeSelecting := false, isDragging := true }).selectedNotes
      = []) :=
  ⟨(interactionEnd_selection demoCfg demoEdit).2 rfl rfl rfl,
   (interactionEnd_selection demoCfg _).1 (Or.inl rfl)⟩

end MusicPlay
